import Mathlib

/-!
# Verification of `modules/interrogate.py` (CLIP/BLIP interrogation engine)

This file gives a shallow embedding of the interrogation engine of the
repository: the similarity ranker `InterrogateModels.rank`, the vocabulary
`topn` derivation from filenames (`re_topn`), the model lifecycle functions
(`send_clip_to_ram`, `send_blip_to_ram`, `unload`), the result-string
formatting, and the top-level `InterrogateModels.interrogate` pipeline with
Python `try/except` semantics made explicit.

Numeric code is embedded over an arbitrary linear ordered field `α`
(instantiated at `ℚ` for executable checks and at `ℝ` with `Real.exp` for
analytic facts); the neural networks (`encode_text`, `encode_image`,
BLIP captioning) are opaque collaborators and enter as parameters.
-/

namespace Interrogate

/-! ## Similarity ranker (`InterrogateModels.rank`, lines 112-129)

`rank` receives `image_features` (a batch of sample vectors, already
unit-normalized by the caller) and a candidate string list.  It encodes the
candidates (`clip.tokenize` + `encode_text` + normalization: opaque, a
parameter `enc` here), then accumulates, per sample, the softmax over
candidates of `100.0 *` the dot products, divides by the sample count, and
returns the `top_count` best entries scaled by `100`. -/

/-- Dot product of two feature vectors (`image_features[i].unsqueeze(0) @ text_features.T`). -/
def dot {α : Type} [LinearOrderedField α] (v w : List α) : α :=
  (List.zipWith (fun a b => a * b) v w).sum

/-- `torch.softmax(dim=-1)` on a vector: each entry `exp xᵢ / Σ exp xⱼ`. -/
def softmax {α : Type} [LinearOrderedField α] (e : α → α) (v : List α) : List α :=
  (v.map e).map (fun x => x / (v.map e).sum)

/-- One loop iteration of line 125: the softmax over candidates of
`100.0 * image_features[i] @ text_features.T` for a single sample `f`. -/
def sampleScores {α : Type} [LinearOrderedField α] (e : α → α)
    (textFeatures : List (List α)) (f : List α) : List α :=
  softmax e (textFeatures.map (fun t => 100 * dot f t))

/-- Elementwise vector addition (`similarity += ...`, line 125). -/
def addVec {α : Type} [LinearOrderedField α] (v w : List α) : List α :=
  List.zipWith (fun a b => a + b) v w

/-- Lines 123-126: start from `torch.zeros((1, len(text_array)))`, add each
sample's softmax distribution, divide by the sample count. -/
def similarity {α : Type} [LinearOrderedField α] (e : α → α)
    (textFeatures : List (List α)) (imageFeatures : List (List α)) : List α :=
  (imageFeatures.foldl (fun acc f => addVec acc (sampleScores e textFeatures f))
      (List.replicate textFeatures.length (0 : α))).map
    (fun x => x / (imageFeatures.length : α))

/-- The comparison used to model `torch.topk` on the flat similarity row:
larger value first; on equal values the smaller (first-occurrence) index
first.  Total and transitive, so sorting with it yields the stable
descending order of the claimed contract. -/
def topkLe {α : Type} [LinearOrderedField α] (a b : ℕ × α) : Bool :=
  decide (b.2 < a.2) || (decide (a.2 = b.2) && decide (a.1 ≤ b.1))

/-- `similarity.cpu().topk(top_count, dim=-1)` (line 128): the `k` largest
entries of the row together with their indices, values descending, ties by
first occurrence. -/
def topk {α : Type} [LinearOrderedField α] (v : List α) (k : ℕ) : List (ℕ × α) :=
  (v.enum.mergeSort topkLe).take k

/-- The strict ordering claimed for the returned entries: strictly larger
value first, and on equal values the smaller (first-occurrence) index
first. -/
def rankOrder {α : Type} [LinearOrderedField α] (a b : ℕ × α) : Prop :=
  b.2 < a.2 ∨ (a.2 = b.2 ∧ a.1 < b.1)

/-- `rank` after candidate-list truncation: clamp `top_count` to the number
of candidates (line 118), build text features, accumulate the averaged
distribution, select the top entries and scale the probabilities by `100`
(lines 118-129). -/
def rankCore {α : Type} [LinearOrderedField α] (e : α → α) (enc : String → List α)
    (imageFeatures : List (List α)) (text_array : List String) (top_count : ℕ) :
    List (String × α) :=
  let tc := min top_count text_array.length
  let textFeatures := text_array.map enc
  (topk (similarity e textFeatures imageFeatures) tc).map
    (fun p => (text_array.getD p.1 "", p.2 * 100))

/-- Recognized options of `shared.opts` / `shared.cmd_opts` used by the engine. -/
structure Opts where
  lowvram : Bool
  interrogate_keep_models_in_memory : Bool
  interrogate_use_builtin_artists : Bool
  interrogate_return_ranks : Bool
  interrogate_clip_dict_limit : ℕ

/-- Lines 115-116: when `opts.interrogate_clip_dict_limit` is nonzero the
candidate list is cut to that prefix before anything is scored. -/
def dictTruncate (opts : Opts) (text_array : List String) : List String :=
  if opts.interrogate_clip_dict_limit ≠ 0 then
    text_array.take opts.interrogate_clip_dict_limit
  else text_array

/-- `InterrogateModels.rank` (lines 112-129), including the dictionary cap. -/
def rank {α : Type} [LinearOrderedField α] (e : α → α) (enc : String → List α)
    (opts : Opts) (imageFeatures : List (List α)) (text_array : List String)
    (top_count : ℕ) : List (String × α) :=
  rankCore e enc imageFeatures (dictTruncate opts text_array) top_count

/-- Modelled from the spec's contrast (the design the spec rules out): a
single softmax applied to the per-candidate arithmetic mean across samples
of the raw `100.0 * dot` logits.  The code does **not** compute this; C3
separates it from `similarity`. -/
def softmaxOverAveragedLogits {α : Type} [LinearOrderedField α] (e : α → α)
    (textFeatures : List (List α)) (imageFeatures : List (List α)) : List α :=
  softmax e
    ((imageFeatures.foldl
        (fun acc f => addVec acc (textFeatures.map (fun t => 100 * dot f t)))
        (List.replicate textFeatures.length (0 : α))).map
      (fun x => x / (imageFeatures.length : α)))

/-! ## Model lifecycle (`send_clip_to_ram`, `send_blip_to_ram`, `unload`) -/

/-- Residency tier of a model handle: the interrogation device
(`devices.device_interrogate`, the fast tier) or CPU RAM (the spill tier). -/
inductive Tier where
  | fast : Tier
  | spill : Tier
deriving DecidableEq, Repr

/-- Mutable engine state tracked by the embedding: placement of the two model
handles (`none` = not loaded), how many times `devices.torch_gc` ran, and how
many diagnostic lines went to stderr. -/
structure IState where
  blipTier : Option Tier
  clipTier : Option Tier
  gcRuns : ℕ
  stderrLines : ℕ
deriving DecidableEq, Repr

/-- `devices.torch_gc()`: the global memory-reclaim pass. -/
def torch_gc (st : IState) : IState :=
  { st with gcRuns := st.gcRuns + 1 }

/-- Lines 96-99: move the CLIP handle to CPU unless
`interrogate_keep_models_in_memory` is set; a missing handle stays missing. -/
def send_clip_to_ram (opts : Opts) (st : IState) : IState :=
  if opts.interrogate_keep_models_in_memory then st
  else { st with clipTier := st.clipTier.map (fun _ => Tier.spill) }

/-- Lines 101-104: same for the BLIP handle. -/
def send_blip_to_ram (opts : Opts) (st : IState) : IState :=
  if opts.interrogate_keep_models_in_memory then st
  else { st with blipTier := st.blipTier.map (fun _ => Tier.spill) }

/-- Lines 106-110: `unload` sends both handles to RAM and then always runs
`devices.torch_gc()`. -/
def unload (opts : Opts) (st : IState) : IState :=
  torch_gc (send_blip_to_ram opts (send_clip_to_ram opts st))

/-- Lines 79-94: `load` ends with both models resident on the interrogation
device. -/
def load (st : IState) : IState :=
  { st with blipTier := some Tier.fast, clipTier := some Tier.fast }

/-! ## Vocabulary `topn` derivation (`re_topn`, lines 24 and 41-42)

`re_topn = re.compile(r"\.top(\d+)\.")`; `__init__` takes
`topn = 1 if m is None else int(m.group(1))` where `m = re_topn.search(filename)`.
`re.search` returns the leftmost match; `\d+` before a literal `.` matches
the maximal digit run (a shorter run would be followed by a digit, not `.`). -/

/-- `int` on a digit string: the numeric value of a decimal digit run. -/
def digitsToNat (ds : List Char) : ℕ :=
  ds.foldl (fun a c => 10 * a + (c.toNat - 48)) 0

/-- Attempt to match `\.top(\d+)\.` anchored at the head of the character
list; returns the captured number on success.  The digit run is maximal
(`takeWhile`), exactly as the greedy `\d+` behaves before a literal `.`. -/
def matchTopnAt : List Char → Option ℕ
  | c1 :: c2 :: c3 :: c4 :: rest =>
    if c1 = '.' ∧ c2 = 't' ∧ c3 = 'o' ∧ c4 = 'p' then
      if rest.takeWhile Char.isDigit = [] then none
      else if (rest.dropWhile Char.isDigit).head? = some '.' then
        some (digitsToNat (rest.takeWhile Char.isDigit))
      else none
    else none
  | _ => none

/-- `re.search` for `re_topn`: try every start position left to right. -/
def searchTopn : List Char → Option ℕ
  | [] => none
  | c :: rest =>
    match matchTopnAt (c :: rest) with
    | some n => some n
    | none => searchTopn rest

/-- Line 42: `topn = 1 if m is None else int(m.group(1))`. -/
def topnOfChars (cs : List Char) : ℕ :=
  (searchTopn cs).getD 1

/-- The `topn` derived from a vocabulary filename. -/
def topnOfFilename (s : String) : ℕ :=
  topnOfChars s.toList

/-- Declarative reading of the spec's pattern: the regex `\.top(\d+)\.`
matches `cs` at start position `i` capturing the digit run `ds`. -/
def TopnMatchAt (cs : List Char) (i : ℕ) (ds : List Char) : Prop :=
  ds ≠ [] ∧ (∀ c ∈ ds, c.isDigit) ∧
    ∃ post, cs.drop i = '.' :: 't' :: 'o' :: 'p' :: (ds ++ '.' :: post)

/-! ## Result-string formatting (lines 172-178)

Ranked-score mode renders `f", ({match}:{score/100:.3f})"`.  We model the
CPython fixed-point format `:.3f` exactly over the field: scale by 1000,
round to the nearest integer with ties to even, and print with three
decimals. -/

/-- Decimal digits of a natural number, with explicit fuel (always enough,
since a number needs at most as many digits as its value). -/
def natStrAux : ℕ → ℕ → List Char
  | 0, _ => []
  | fuel + 1, n =>
    if n < 10 then [Char.ofNat (48 + n)]
    else natStrAux fuel (n / 10) ++ [Char.ofNat (48 + n % 10)]

/-- Rendering of a natural number in decimal. -/
def natStr (n : ℕ) : String :=
  String.mk (natStrAux (n + 1) n)

/-- Rendering of an integer in decimal. -/
def intStr (i : ℤ) : String :=
  if i < 0 then "-" ++ natStr i.natAbs else natStr i.toNat

/-- Round to the nearest integer, ties to even (CPython float formatting). -/
def roundHalfEven {α : Type} [LinearOrderedField α] [FloorRing α] (y : α) : ℤ :=
  let f := ⌊y⌋
  if y - (f : α) < 1 / 2 then f
  else if (1 : α) / 2 < y - (f : α) then f + 1
  else if f % 2 = 0 then f else f + 1

/-- Left-pad the fractional part to three digits. -/
def pad3 (n : ℕ) : String :=
  if n < 10 then "00" ++ natStr n
  else if n < 100 then "0" ++ natStr n
  else natStr n

/-- Python `f"{x:.3f}"` for a nonnegative value. -/
def fmt3 {α : Type} [LinearOrderedField α] [FloorRing α] (x : α) : String :=
  let n := roundHalfEven (x * 1000)
  intStr (n / 1000) ++ "." ++ pad3 (n % 1000).toNat

/-- Lines 174-178: the clause appended to `res` for one ranked match.
Ranked-score mode renders `f", ({match}:{score/100:.3f})"`, plain mode
appends `", " + match`. -/
def matchText {α : Type} [LinearOrderedField α] [FloorRing α] (opts : Opts)
    (p : String × α) : String :=
  if opts.interrogate_return_ranks then
    ", (" ++ p.1 ++ ":" ++ fmt3 (p.2 / 100) ++ ")"
  else ", " ++ p.1

/-! ## The interrogation pipeline (`InterrogateModels.interrogate`, lines 143-187)

Python semantics made explicit: `res` starts as `None` (line 144); the
`except` block (lines 180-183) prints two diagnostic lines and then executes
`res += "<error>"`.  When `res` is still `None` this very statement raises
`TypeError` (`None + str`), the new exception escapes the function and
line 185 (`self.unload()`) never runs.  When `res` already holds a string the
marker is appended and control reaches `unload` and the `return`.

Fallible collaborators are parameters: `loadOk` (network fetch / weight
load), `captionRes` (BLIP generation), `encodeRes` (CLIP preprocessing and
`encode_image`).  Ranking uses the embedded `rank` and is total. -/

/-- The only exception that can escape `interrogate`: the `TypeError` raised
by `res += "<error>"` while `res` is `None`. -/
inductive PyError where
  | typeError : PyError
deriving DecidableEq, Repr

/-- The `Category` namedtuple (line 22). -/
structure Category where
  name : String
  topn : ℕ
  items : List String

/-- Lines 181-182: the handler prints the message and the traceback to the
diagnostic stream. -/
def logTraceback (st : IState) : IState :=
  { st with stderrLines := st.stderrLines + 2 }

/-- Lines 172-178: the loop over the vocabulary store, appending one clause
per returned match of each category. -/
def categoriesText {α : Type} [LinearOrderedField α] [FloorRing α] (opts : Opts)
    (e : α → α) (enc : String → List α) (imageFeatures : List (List α))
    (cats : List Category) : String :=
  cats.foldl
    (fun acc c =>
      (rank e enc opts imageFeatures c.items c.topn).foldl
        (fun s m => s ++ matchText opts m) acc)
    ""

/-- `InterrogateModels.interrogate` (lines 143-187). The first component is
`Except.ok res` on a normal `return res` and `Except.error` when an
exception escapes; the second component is the engine state when control
leaves the function. -/
def interrogate {α : Type} [LinearOrderedField α] [FloorRing α] (opts : Opts)
    (e : α → α) (enc : String → List α) (artists : List String)
    (categories : List Category) (loadOk : Bool)
    (captionRes : Except Unit String) (encodeRes : Except Unit (List (List α)))
    (st : IState) : Except PyError (Option String) × IState :=
  let st0 := if opts.lowvram then torch_gc st else st
  if loadOk = false then
    (Except.error PyError.typeError, logTraceback st0)
  else
    let st1 := load st0
    match captionRes with
    | Except.error _ => (Except.error PyError.typeError, logTraceback st1)
    | Except.ok caption =>
      let st2 := torch_gc (send_blip_to_ram opts st1)
      match encodeRes with
      | Except.error _ =>
        (Except.ok (some (caption ++ "<error>")), unload opts (logTraceback st2))
      | Except.ok image_features =>
        if opts.interrogate_use_builtin_artists then
          match (rank e enc opts image_features
              (artists.map (fun a => "by " ++ a)) 1).head? with
          | none =>
            (Except.ok (some (caption ++ "<error>")), unload opts (logTraceback st2))
          | some artist =>
            (Except.ok (some (caption ++ ", " ++ artist.1 ++
              categoriesText opts e enc image_features categories)),
             unload opts st2)
        else
          (Except.ok (some (caption ++
            categoriesText opts e enc image_features categories)),
           unload opts st2)

/-! ## Basic lemmas about the ranker's vector operations -/

section RankLemmas

variable {α : Type} [LinearOrderedField α]

theorem softmax_length (e : α → α) (v : List α) : (softmax e v).length = v.length := by
  simp [softmax]

theorem sampleScores_length (e : α → α) (T : List (List α)) (f : List α) :
    (sampleScores e T f).length = T.length := by
  simp [sampleScores, softmax_length]

theorem addVec_length (v w : List α) : (addVec v w).length = min v.length w.length := by
  simp [addVec]

theorem sum_map_div (l : List α) (c : α) :
    (l.map (fun x => x / c)).sum = l.sum / c := by
  induction l with
  | nil => simp
  | cons a l ih => simp [ih, add_div]

theorem addVec_getD (v w : List α) (h : v.length = w.length) (j : ℕ) :
    (addVec v w).getD j 0 = v.getD j 0 + w.getD j 0 := by
  induction v generalizing w j with
  | nil =>
    cases w with
    | nil => simp [addVec]
    | cons b w => simp at h
  | cons a v ih =>
    cases w with
    | nil => simp at h
    | cons b w =>
      cases j with
      | zero => simp [addVec]
      | succ j =>
        simp only [addVec, List.zipWith_cons_cons, List.getD_cons_succ]
        exact ih w (by simpa using h) j

theorem addVec_sum (v w : List α) (h : v.length = w.length) :
    (addVec v w).sum = v.sum + w.sum := by
  induction v generalizing w with
  | nil =>
    cases w with
    | nil => simp [addVec]
    | cons b w => simp at h
  | cons a v ih =>
    cases w with
    | nil => simp at h
    | cons b w =>
      simp only [addVec, List.zipWith_cons_cons, List.sum_cons]
      rw [show List.zipWith (fun a b => a + b) v w = addVec v w from rfl,
        ih w (by simpa using h)]
      ring

theorem addVec_mem (v w : List α) (x : α) (hx : x ∈ addVec v w) :
    ∃ a ∈ v, ∃ b ∈ w, x = a + b := by
  induction v generalizing w with
  | nil => simp [addVec] at hx
  | cons a v ih =>
    cases w with
    | nil => simp [addVec] at hx
    | cons b w =>
      simp only [addVec, List.zipWith_cons_cons, List.mem_cons] at hx
      rcases hx with rfl | hx
      · exact ⟨a, by simp, b, by simp, rfl⟩
      · obtain ⟨a', ha, b', hb, rfl⟩ := ih w hx
        exact ⟨a', by simp [ha], b', by simp [hb], rfl⟩

theorem expSum_pos (e : α → α) (he : ∀ x, 0 < e x) (v : List α) (hv : v ≠ []) :
    0 < (v.map e).sum := by
  apply List.sum_pos
  · intro b hb
    obtain ⟨c, _, rfl⟩ := List.mem_map.mp hb
    exact he c
  · simpa using hv

theorem softmax_pos (e : α → α) (he : ∀ x, 0 < e x) (v : List α) :
    ∀ x ∈ softmax e v, 0 < x := by
  intro x hx
  simp only [softmax, List.mem_map] at hx
  obtain ⟨y, ⟨a, ha, rfl⟩, rfl⟩ := hx
  exact div_pos (he a) (expSum_pos e he v (List.ne_nil_of_mem ha))

theorem softmax_le_one (e : α → α) (he : ∀ x, 0 < e x) (v : List α) :
    ∀ x ∈ softmax e v, x ≤ 1 := by
  intro x hx
  simp only [softmax, List.mem_map] at hx
  obtain ⟨y, ⟨a, ha, rfl⟩, rfl⟩ := hx
  have hS := expSum_pos e he v (List.ne_nil_of_mem ha)
  rw [div_le_one hS]
  exact List.single_le_sum (fun b hb => le_of_lt (by
    obtain ⟨c, _, rfl⟩ := List.mem_map.mp hb
    exact he c)) _ (List.mem_map_of_mem e ha)

theorem softmax_sum (e : α → α) (he : ∀ x, 0 < e x) (v : List α) (hv : v ≠ []) :
    (softmax e v).sum = 1 := by
  have hS := expSum_pos e he v hv
  rw [softmax, sum_map_div, div_self (ne_of_gt hS)]

theorem foldl_addVec_length (g : List α → List α) (L : ℕ)
    (hg : ∀ f, (g f).length = L) (F : List (List α)) :
    ∀ acc, acc.length = L → (F.foldl (fun a f => addVec a (g f)) acc).length = L := by
  induction F with
  | nil => intro acc h; simpa using h
  | cons f F ih =>
    intro acc h
    simp only [List.foldl_cons]
    exact ih _ (by rw [addVec_length, h, hg f, min_self])

theorem foldl_addVec_getD (g : List α → List α) (L : ℕ)
    (hg : ∀ f, (g f).length = L) (F : List (List α)) (j : ℕ) :
    ∀ acc, acc.length = L →
      (F.foldl (fun a f => addVec a (g f)) acc).getD j 0
        = acc.getD j 0 + (F.map (fun f => (g f).getD j 0)).sum := by
  induction F with
  | nil => intro acc _; simp
  | cons f F ih =>
    intro acc h
    simp only [List.foldl_cons, List.map_cons, List.sum_cons]
    rw [ih _ (by rw [addVec_length, h, hg f, min_self]),
      addVec_getD _ _ (by rw [h, hg f]) j]
    ring

theorem foldl_addVec_sum (g : List α → List α) (L : ℕ)
    (hg : ∀ f, (g f).length = L) (F : List (List α)) :
    ∀ acc, acc.length = L →
      (F.foldl (fun a f => addVec a (g f)) acc).sum
        = acc.sum + (F.map (fun f => (g f).sum)).sum := by
  induction F with
  | nil => intro acc _; simp
  | cons f F ih =>
    intro acc h
    simp only [List.foldl_cons, List.map_cons, List.sum_cons]
    rw [ih _ (by rw [addVec_length, h, hg f, min_self]),
      addVec_sum _ _ (by rw [h, hg f])]
    ring

theorem foldl_addVec_mem_le (g : List α → List α) (L : ℕ)
    (hg : ∀ f, (g f).length = L)
    (hgb : ∀ f, ∀ x ∈ g f, 0 ≤ x ∧ x ≤ 1) (F : List (List α)) :
    ∀ acc (c : α), acc.length = L → (∀ x ∈ acc, 0 ≤ x ∧ x ≤ c) →
      ∀ x ∈ F.foldl (fun a f => addVec a (g f)) acc, 0 ≤ x ∧ x ≤ c + F.length := by
  induction F with
  | nil =>
    intro acc c _ hacc x hx
    simpa using hacc x hx
  | cons f F ih =>
    intro acc c h hacc x hx
    simp only [List.foldl_cons] at hx
    have hstep : ∀ y ∈ addVec acc (g f), 0 ≤ y ∧ y ≤ c + 1 := by
      intro y hy
      obtain ⟨a, ha, b, hb, rfl⟩ := addVec_mem _ _ _ hy
      obtain ⟨h1, h2⟩ := hacc a ha
      obtain ⟨h3, h4⟩ := hgb f b hb
      constructor <;> linarith
    have hmain := ih (addVec acc (g f)) (c + 1)
      (by rw [addVec_length, h, hg f, min_self]) hstep x hx
    refine ⟨hmain.1, ?_⟩
    have := hmain.2
    simp only [List.length_cons]
    push_cast
    push_cast at this
    linarith

theorem getD_map_div (l : List α) (c : α) (j : ℕ) :
    (l.map (fun x => x / c)).getD j 0 = l.getD j 0 / c := by
  induction l generalizing j with
  | nil => simp
  | cons a l ih =>
    cases j with
    | zero => simp
    | succ j => simpa using ih j

theorem getD_replicate_zero (L j : ℕ) : (List.replicate L (0 : α)).getD j 0 = 0 := by
  induction L generalizing j with
  | zero => simp
  | succ L ih =>
    cases j with
    | zero => simp [List.replicate]
    | succ j => simp [List.replicate, ih j]

theorem similarity_length (e : α → α) (T F : List (List α)) :
    (similarity e T F).length = T.length := by
  simp only [similarity, List.length_map]
  exact foldl_addVec_length _ _ (sampleScores_length e T) F _ (by simp)

/-- Closed form for lines 123-126: each entry of the accumulated row is the
arithmetic mean over samples of that candidate's per-sample softmax
probability. -/
theorem similarity_getD (e : α → α) (T F : List (List α)) (j : ℕ) :
    (similarity e T F).getD j 0
      = (F.map (fun f => (sampleScores e T f).getD j 0)).sum / F.length := by
  rw [similarity, getD_map_div,
    foldl_addVec_getD _ _ (sampleScores_length e T) F j _ (by simp),
    getD_replicate_zero, zero_add]

theorem similarity_sum (e : α → α) (T F : List (List α)) :
    (similarity e T F).sum
      = (F.map (fun f => (sampleScores e T f).sum)).sum / F.length := by
  rw [similarity, sum_map_div,
    foldl_addVec_sum _ _ (sampleScores_length e T) F _ (by simp)]
  simp

theorem sampleScores_bounds (e : α → α) (he : ∀ x, 0 < e x)
    (T : List (List α)) (f : List α) :
    ∀ x ∈ sampleScores e T f, 0 ≤ x ∧ x ≤ 1 := by
  intro x hx
  exact ⟨le_of_lt (softmax_pos e he _ x hx), softmax_le_one e he _ x hx⟩

theorem sampleScores_sum_le_one (e : α → α) (he : ∀ x, 0 < e x)
    (T : List (List α)) (f : List α) :
    (sampleScores e T f).sum ≤ 1 := by
  rcases eq_or_ne T [] with rfl | hT
  · simp [sampleScores, softmax]
  · rw [sampleScores, softmax_sum e he _ (by simpa using hT)]

theorem similarity_bounds (e : α → α) (he : ∀ x, 0 < e x)
    (T F : List (List α)) (hF : 0 < F.length) :
    ∀ x ∈ similarity e T F, 0 ≤ x ∧ x ≤ 1 := by
  intro x hx
  simp only [similarity, List.mem_map] at hx
  obtain ⟨y, hy, rfl⟩ := hx
  have hn : (0 : α) < F.length := by exact_mod_cast hF
  have hb := foldl_addVec_mem_le _ _ (sampleScores_length e T)
    (fun f => sampleScores_bounds e he T f) F
    (List.replicate T.length 0) 0 (by simp)
    (fun z hz => by simp [List.eq_of_mem_replicate hz]) y hy
  constructor
  · exact div_nonneg hb.1 (le_of_lt hn)
  · rw [div_le_one hn]
    have := hb.2
    linarith

theorem similarity_sum_le_one (e : α → α) (he : ∀ x, 0 < e x)
    (T F : List (List α)) (hF : 0 < F.length) :
    (similarity e T F).sum ≤ 1 := by
  rw [similarity_sum]
  have hn : (0 : α) < F.length := by exact_mod_cast hF
  rw [div_le_one hn]
  have hcard := List.sum_le_card_nsmul
    (F.map (fun f => (sampleScores e T f).sum)) 1
    (by
      intro x hx
      obtain ⟨f, _, rfl⟩ := List.mem_map.mp hx
      exact sampleScores_sum_le_one e he T f)
  simpa using hcard

theorem topkLe_trans : ∀ a b c : ℕ × α, topkLe a b → topkLe b c → topkLe a c := by
  intro a b c h1 h2
  simp only [topkLe, Bool.or_eq_true, Bool.and_eq_true, decide_eq_true_eq] at h1 h2 ⊢
  rcases h1 with h1 | ⟨h1e, h1i⟩ <;> rcases h2 with h2 | ⟨h2e, h2i⟩
  · exact Or.inl (lt_trans h2 h1)
  · exact Or.inl (h2e ▸ h1)
  · exact Or.inl (h1e ▸ h2)
  · exact Or.inr ⟨h1e.trans h2e, le_trans h1i h2i⟩

theorem topkLe_total : ∀ a b : ℕ × α, topkLe a b || topkLe b a := by
  intro a b
  simp only [topkLe, Bool.or_eq_true, Bool.and_eq_true, decide_eq_true_eq]
  rcases lt_trichotomy a.2 b.2 with h | h | h
  · exact Or.inr (Or.inl h)
  · rcases le_total a.1 b.1 with hi | hi
    · exact Or.inl (Or.inr ⟨h, hi⟩)
    · exact Or.inr (Or.inr ⟨h.symm, hi⟩)
  · exact Or.inl (Or.inl h)

theorem topk_pairwise (v : List α) (k : ℕ) :
    (topk v k).Pairwise rankOrder := by
  have hs : (v.enum.mergeSort topkLe).Pairwise (fun a b => topkLe a b = true) :=
    List.sorted_mergeSort topkLe_trans topkLe_total v.enum
  have hnd : ((v.enum.mergeSort topkLe).map Prod.fst).Nodup := by
    have hp : List.Perm ((v.enum.mergeSort topkLe).map Prod.fst)
        (v.enum.map Prod.fst) :=
      (List.mergeSort_perm _ _).map Prod.fst
    rw [List.enum_map_fst] at hp
    exact hp.nodup_iff.mpr (List.nodup_range _)
  have hne : (v.enum.mergeSort topkLe).Pairwise (fun a b => a.1 ≠ b.1) :=
    List.pairwise_map.mp hnd
  have hcomb := hs.and hne
  have hstrict : (v.enum.mergeSort topkLe).Pairwise rankOrder := by
    refine hcomb.imp ?_
    intro a b hab
    obtain ⟨hle, hne'⟩ := hab
    simp only [topkLe, Bool.or_eq_true, Bool.and_eq_true, decide_eq_true_eq] at hle
    rcases hle with h | ⟨he, hi⟩
    · exact Or.inl h
    · exact Or.inr ⟨he, lt_of_le_of_ne hi hne'⟩
  exact hstrict.sublist (List.take_sublist k _)

theorem topk_length (v : List α) (k : ℕ) :
    (topk v k).length = min k v.length := by
  simp [topk]

theorem topk_snd_mem (v : List α) (k : ℕ) (p : ℕ × α) (hp : p ∈ topk v k) :
    p.2 ∈ v := by
  have h1 : p ∈ v.enum.mergeSort topkLe := List.mem_of_mem_take hp
  have h2 : p ∈ v.enum := List.mem_mergeSort.mp h1
  have h3 : p.2 ∈ v.enum.map Prod.snd := List.mem_map_of_mem Prod.snd h2
  rwa [List.enum_map_snd] at h3

theorem topk_map_snd_sum_le (v : List α) (k : ℕ) (hv : ∀ x ∈ v, 0 ≤ x) :
    ((topk v k).map Prod.snd).sum ≤ v.sum := by
  have hperm : List.Perm ((v.enum.mergeSort topkLe).map Prod.snd) v := by
    have h1 := (List.mergeSort_perm v.enum topkLe).map Prod.snd
    rwa [List.enum_map_snd] at h1
  have htake : (topk v k).map Prod.snd
      = ((v.enum.mergeSort topkLe).map Prod.snd).take k := by
    rw [topk, List.map_take]
  rw [htake]
  have hsplit := List.take_append_drop k ((v.enum.mergeSort topkLe).map Prod.snd)
  have hd : 0 ≤ (((v.enum.mergeSort topkLe).map Prod.snd).drop k).sum :=
    List.sum_nonneg (fun x hx =>
      hv x (hperm.mem_iff.mp (List.mem_of_mem_drop hx)))
  calc (((v.enum.mergeSort topkLe).map Prod.snd).take k).sum
      ≤ (((v.enum.mergeSort topkLe).map Prod.snd).take k).sum
        + (((v.enum.mergeSort topkLe).map Prod.snd).drop k).sum := by linarith
    _ = ((v.enum.mergeSort topkLe).map Prod.snd).sum := by
        rw [← List.sum_append, hsplit]
    _ = v.sum := hperm.sum_eq

theorem rankCore_length (e : α → α) (enc : String → List α)
    (F : List (List α)) (cands : List String) (k : ℕ) :
    (rankCore e enc F cands k).length = min k cands.length := by
  simp only [rankCore, List.length_map, topk_length, similarity_length]
  omega

end RankLemmas

/-! ## Claim theorems about the ranker -/

/-- **C4**: for every candidate list and every `top_count` greater than the
number of candidates, `rank` returns exactly `len(candidates)` results (in
the default configuration where no dictionary cap interferes; the nonzero
cap is the subject of C7).  The clamp `top_count = min(top_count,
len(text_array))` on line 118 makes the request saturate instead of erring:
the embedding is total, whereas an unclamped `torch.topk` would reject
`k > len`. -/
theorem rank_top_count_saturates {α : Type} [LinearOrderedField α]
    (e : α → α) (enc : String → List α) (opts : Opts)
    (F : List (List α)) (cands : List String) (k : ℕ)
    (hlim : opts.interrogate_clip_dict_limit = 0)
    (hk : cands.length < k) :
    (rank e enc opts F cands k).length = cands.length := by
  rw [rank, dictTruncate, hlim]
  simp only [ne_eq, not_true_eq_false, ite_false]
  rw [rankCore_length]
  omega

theorem rank_top_count_saturates_witness :
    (Opts.mk false false false false 0).interrogate_clip_dict_limit = 0 ∧
    (["a", "b"] : List String).length < 3 ∧
    (rank (fun _ : ℚ => 1) (fun _ => [1]) (Opts.mk false false false false 0)
      [[1]] ["a", "b"] 3).length = 2 :=
  ⟨rfl, by decide,
    rank_top_count_saturates (fun _ : ℚ => 1) (fun _ => [1])
      (Opts.mk false false false false 0) [[1]] ["a", "b"] 3 rfl (by decide)⟩

/-- **C7**: a nonzero global candidate-list cap truncates the candidates to
that prefix before scoring (lines 115-116), so at most `N` candidates are
scored and at most `min(top_count, N)` results come back. -/
theorem rank_dict_limit_truncates {α : Type} [LinearOrderedField α]
    (e : α → α) (enc : String → List α) (opts : Opts)
    (F : List (List α)) (cands : List String) (k : ℕ)
    (hlim : opts.interrogate_clip_dict_limit ≠ 0) :
    dictTruncate opts cands = cands.take opts.interrogate_clip_dict_limit ∧
    (dictTruncate opts cands).length ≤ opts.interrogate_clip_dict_limit ∧
    (rank e enc opts F cands k).length ≤ min k opts.interrogate_clip_dict_limit := by
  refine ⟨by rw [dictTruncate, if_pos hlim], ?_, ?_⟩
  · rw [dictTruncate, if_pos hlim]
    simp only [List.length_take]
    omega
  · rw [rank, rankCore_length, dictTruncate, if_pos hlim]
    simp only [List.length_take]
    omega

theorem rank_dict_limit_truncates_witness :
    (Opts.mk false false false false 1).interrogate_clip_dict_limit ≠ 0 ∧
    dictTruncate (Opts.mk false false false false 1) ["a", "b"] = ["a"] ∧
    (rank (fun _ : ℚ => 1) (fun _ => [1]) (Opts.mk false false false false 1)
      [[1]] ["a", "b"] 3).length ≤ 1 := by
  have h := rank_dict_limit_truncates (fun _ : ℚ => 1) (fun _ => [1])
    (Opts.mk false false false false 1) [[1]] ["a", "b"] 3 (by decide)
  exact ⟨by decide, by rw [h.1]; decide, by simpa using h.2.2⟩

/-- **C5**: every confidence returned by `rank` lies in `[0, 100]`, the
returned confidences sum to at most `100`, and the underlying `topk`
selection is in strictly descending-confidence order with ties broken by
first-occurrence index; the returned pairs are exactly that selection with
the candidate string substituted and the probability scaled by 100. -/
theorem rank_confidence_bounds_and_order {α : Type} [LinearOrderedField α]
    (e : α → α) (enc : String → List α) (opts : Opts) (F : List (List α))
    (cands : List String) (k : ℕ)
    (he : ∀ x, 0 < e x) (hF : 0 < F.length) :
    (∀ p ∈ rank e enc opts F cands k, 0 ≤ p.2 ∧ p.2 ≤ 100) ∧
    ((rank e enc opts F cands k).map Prod.snd).sum ≤ 100 ∧
    (rank e enc opts F cands k).Pairwise (fun a b => b.2 ≤ a.2) ∧
    (topk (similarity e ((dictTruncate opts cands).map enc) F)
        (min k (dictTruncate opts cands).length)).Pairwise rankOrder ∧
    rank e enc opts F cands k
      = (topk (similarity e ((dictTruncate opts cands).map enc) F)
          (min k (dictTruncate opts cands).length)).map
        (fun p => ((dictTruncate opts cands).getD p.1 "", p.2 * 100)) := by
  refine ⟨?_, ?_, ?_, topk_pairwise _ _, rfl⟩
  · intro p hp
    rw [rank, rankCore] at hp
    simp only [List.mem_map] at hp
    obtain ⟨q, hq, rfl⟩ := hp
    have hmem := topk_snd_mem _ _ q hq
    have hb := similarity_bounds e he _ F hF q.2 hmem
    refine ⟨?_, ?_⟩ <;> show _ ≤ _
    · have := hb.1
      positivity
    · show q.2 * 100 ≤ 100
      nlinarith [hb.2]
  · rw [rank, rankCore]
    simp only [List.map_map]
    have heq : (Prod.snd ∘ fun p : ℕ × α =>
        ((dictTruncate opts cands).getD p.1 "", p.2 * 100))
        = fun p : ℕ × α => p.2 * 100 := rfl
    rw [heq, List.sum_map_mul_right]
    have hnn : ∀ x ∈ similarity e ((dictTruncate opts cands).map enc) F, 0 ≤ x :=
      fun x hx => (similarity_bounds e he _ F hF x hx).1
    have h1 := topk_map_snd_sum_le
      (similarity e ((dictTruncate opts cands).map enc) F)
      (min k (dictTruncate opts cands).length) hnn
    have h2 := similarity_sum_le_one e he ((dictTruncate opts cands).map enc) F hF
    nlinarith
  · rw [rank, rankCore]
    refine List.pairwise_map.mpr ((topk_pairwise _ _).imp ?_)
    intro a b hab
    show b.2 * 100 ≤ a.2 * 100
    rcases hab with h | ⟨h, _⟩
    · nlinarith
    · rw [h]

theorem rank_confidence_bounds_and_order_witness :
    (∀ x : ℚ, 0 < (fun _ : ℚ => (1 : ℚ)) x) ∧
    0 < ([[(1 : ℚ)]] : List (List ℚ)).length ∧
    ((∀ p ∈ rank (fun _ : ℚ => 1) (fun _ => [1])
        (Opts.mk false false false false 0) [[1]] ["a", "b"] 2,
        0 ≤ p.2 ∧ p.2 ≤ 100) ∧
      ((rank (fun _ : ℚ => 1) (fun _ => [1])
        (Opts.mk false false false false 0) [[1]] ["a", "b"] 2).map
          Prod.snd).sum ≤ 100) := by
  have h := rank_confidence_bounds_and_order (fun _ : ℚ => 1) (fun _ => [1])
    (Opts.mk false false false false 0) [[1]] ["a", "b"] 2
    (fun _ => one_pos) (by decide)
  exact ⟨fun _ => one_pos, by decide, h.1, h.2.1⟩

/-- **C3**: per sample, `rank` softmaxes the `100.0`-scaled raw dot products
over the candidates, sums the distributions, and divides by the sample
count: each entry of the accumulated row is the arithmetic mean of the
per-sample softmax probabilities.  This is not a softmax over averaged
logits: at `ℝ` with the genuine exponential the two disagree on an explicit
input. -/
theorem rank_mean_of_softmaxes :
    (∀ (α : Type) [LinearOrderedField α] (e : α → α)
        (T F : List (List α)) (j : ℕ),
        (similarity e T F).getD j 0
          = (F.map (fun f => (sampleScores e T f).getD j 0)).sum / F.length) ∧
    similarity Real.exp [[1], [0]] [[1/100], [0]]
      ≠ softmaxOverAveragedLogits Real.exp [[1], [0]] [[1/100], [0]] := by
  constructor
  · intro α _ e T F j
    exact similarity_getD e T F j
  · have hX : (1 : ℝ) < Real.exp (1/2) := by
      have h := Real.exp_lt_exp.mpr (show (0:ℝ) < 1/2 by norm_num)
      rwa [Real.exp_zero] at h
    have hE : Real.exp 1 = Real.exp (1/2) * Real.exp (1/2) := by
      rw [← Real.exp_add]; norm_num
    simp only [similarity, softmaxOverAveragedLogits, sampleScores, softmax, dot,
      addVec, List.map_cons, List.map_nil, List.foldl_cons, List.foldl_nil,
      List.zipWith_cons_cons, List.zipWith_nil_right, List.zipWith_nil_left,
      List.sum_cons, List.sum_nil, List.length_cons, List.length_nil,
      List.replicate, Real.exp_zero]
    norm_num
    intro h1
    exfalso
    rw [hE] at h1
    have hx0 : (0:ℝ) < Real.exp (1/2) := lt_trans one_pos hX
    have hcube : 0 < (Real.exp (1/2) - 1) ^ 3 := pow_pos (sub_pos.mpr hX) 3
    have hd1 : (0:ℝ) < Real.exp (1/2) * Real.exp (1/2) + 1 := by positivity
    have hd2 : (0:ℝ) < Real.exp (1/2) + 1 := by positivity
    rw [div_add_div _ _ (ne_of_gt hd1) (by norm_num : (2:ℝ) ≠ 0)] at h1
    field_simp at h1
    nlinarith [hcube, hx0]

/-! ## Lifecycle and pipeline claims -/

theorem foldl_addVec_nil {α : Type} [LinearOrderedField α]
    (g : List α → List α) (F : List (List α)) :
    F.foldl (fun a f => addVec a (g f)) [] = [] := by
  induction F with
  | nil => rfl
  | cons f F ih => simpa [addVec] using ih

/-- `rank` on an empty candidate list returns the empty result list. -/
theorem rank_nil_candidates {α : Type} [LinearOrderedField α]
    (e : α → α) (enc : String → List α) (opts : Opts)
    (F : List (List α)) (k : ℕ) :
    rank e enc opts F ([] : List String) k = [] := by
  have hd : dictTruncate opts [] = [] := by simp [dictTruncate]
  rw [rank, hd, rankCore]
  simp [similarity, topk, foldl_addVec_nil]

/-- **C9**: when the keep-models-in-memory flag is set, `unload` leaves the
placement of both handles unchanged and still triggers the memory-reclaim
pass; the reclaim runs on every `unload`, whatever the configuration. -/
theorem unload_keep_flag_and_gc :
    (∀ (l a r : Bool) (d : ℕ) (st : IState),
      unload (Opts.mk l true a r d) st = { st with gcRuns := st.gcRuns + 1 }) ∧
    (∀ (opts : Opts) (st : IState), (unload opts st).gcRuns = st.gcRuns + 1) := by
  constructor
  · intro l a r d st
    simp [unload, send_clip_to_ram, send_blip_to_ram, torch_gc]
  · intro opts st
    rcases opts with ⟨l, k, a, r, d⟩
    cases k <;> simp [unload, send_clip_to_ram, send_blip_to_ram, torch_gc]

/-- **C1** is refuted by the code (code bug): if an exception arrives before
`res = caption` executes (here: the caption step itself fails), the handler
runs `res += "<error>"` on `res = None`, which raises `TypeError`;
`interrogate` re-raises and the caller receives no string — only the two
diagnostic lines were written.  This contradicts the intended
always-return-a-string contract (the spec flags the same edge case). -/
theorem interrogate_caption_failure_reraises :
    interrogate (Opts.mk false false false false 0) (fun _ : ℚ => 1)
      (fun _ => [1]) [] [] true (Except.error ()) (Except.ok [[1]])
      (IState.mk none none 0 0)
      = (Except.error PyError.typeError,
         IState.mk (some Tier.fast) (some Tier.fast) 0 2) := rfl

/-- **C2** is refuted by the code (same bug): on that early failure the
escaping `TypeError` skips line 185, so `self.unload()` never runs: when
control leaves the call both handles are still resident on the fast tier
and no memory reclaim happened. -/
theorem interrogate_caption_failure_skips_unload :
    ((interrogate (Opts.mk false false false false 0) (fun _ : ℚ => 1)
      (fun _ => [1]) [] [] true (Except.error ()) (Except.ok [[1]])
      (IState.mk none none 5 0)).2.clipTier = some Tier.fast) ∧
    ((interrogate (Opts.mk false false false false 0) (fun _ : ℚ => 1)
      (fun _ => [1]) [] [] true (Except.error ()) (Except.ok [[1]])
      (IState.mk none none 5 0)).2.blipTier = some Tier.fast) ∧
    ((interrogate (Opts.mk false false false false 0) (fun _ : ℚ => 1)
      (fun _ => [1]) [] [] true (Except.error ()) (Except.ok [[1]])
      (IState.mk none none 5 0)).2.gcRuns = 5) :=
  ⟨rfl, rfl, rfl⟩

/-- **C10**: with the built-in artist vocabulary enabled but an empty artist
list, `rank` on the (empty) prefixed artist list returns `[]`, indexing its
first element raises, the top-level handler catches it, and `interrogate`
returns the caption with `<error>` appended, with both models sent to the
spill tier and the reclaim pass run. -/
theorem interrogate_empty_artists_marker {α : Type} [LinearOrderedField α]
    [FloorRing α] (e : α → α) (enc : String → List α) (r : Bool) (d : ℕ)
    (caption : String) (F : List (List α)) (cats : List Category) (st : IState) :
    rank e enc (Opts.mk false false true r d) F
      (([] : List String).map (fun a => "by " ++ a)) 1 = [] ∧
    interrogate (Opts.mk false false true r d) e enc [] cats true
      (Except.ok caption) (Except.ok F) st
      = (Except.ok (some (caption ++ "<error>")),
         IState.mk (some Tier.spill) (some Tier.spill)
           (st.gcRuns + 2) (st.stderrLines + 2)) := by
  constructor
  · simpa using rank_nil_candidates e enc (Opts.mk false false true r d) F 1
  · rcases st with ⟨b, c, g, s⟩
    simp [interrogate, rank_nil_candidates, load, torch_gc, send_blip_to_ram,
      unload, send_clip_to_ram, logTraceback]

/-! ## Correctness of the `re_topn` search embedding -/

theorem takeWhile_digits_append (ds : List Char) (c : Char) (post : List Char)
    (hds : ∀ x ∈ ds, Char.isDigit x) (hc : Char.isDigit c = false) :
    (ds ++ c :: post).takeWhile Char.isDigit = ds ∧
    (ds ++ c :: post).dropWhile Char.isDigit = c :: post := by
  induction ds with
  | nil => simp [List.takeWhile, List.dropWhile, hc]
  | cons d ds ih =>
    have hd : Char.isDigit d := hds d (by simp)
    have ih2 := ih (fun x hx => hds x (by simp [hx]))
    simp [List.takeWhile_cons, List.dropWhile_cons, hd, ih2.1, ih2.2]

theorem digitRun_unique : ∀ (ds ds' post post' : List Char),
    (∀ c ∈ ds, Char.isDigit c) → (∀ c ∈ ds', Char.isDigit c) →
    ds ++ '.' :: post = ds' ++ '.' :: post' → ds = ds' ∧ post = post' := by
  intro ds
  induction ds with
  | nil =>
    intro ds' post post' _ hds' h
    cases ds' with
    | nil => simpa using h
    | cons d' ds' =>
      exfalso
      simp only [List.nil_append, List.cons_append, List.cons.injEq] at h
      have hd' : Char.isDigit d' := hds' d' (by simp)
      rw [← h.1] at hd'
      exact absurd hd' (by decide)
  | cons d ds ih =>
    intro ds' post post' hds hds' h
    cases ds' with
    | nil =>
      exfalso
      simp only [List.cons_append, List.nil_append, List.cons.injEq] at h
      have hd : Char.isDigit d := hds d (by simp)
      rw [h.1] at hd
      exact absurd hd (by decide)
    | cons d' ds' =>
      simp only [List.cons_append, List.cons.injEq] at h
      obtain ⟨rfl, h2⟩ := h
      have := ih ds' post post' (fun c hc => hds c (by simp [hc]))
        (fun c hc => hds' c (by simp [hc])) h2
      exact ⟨by rw [this.1], this.2⟩

theorem matchTopnAt_of (cs : List Char) (ds : List Char)
    (h : TopnMatchAt cs 0 ds) : matchTopnAt cs = some (digitsToNat ds) := by
  obtain ⟨hne, hdig, post, hpost⟩ := h
  rw [List.drop_zero] at hpost
  subst hpost
  have htw := takeWhile_digits_append ds '.' post hdig (by decide)
  simp [matchTopnAt, htw.1, htw.2, hne]

theorem matchTopnAt_some_elim (cs : List Char) (n : ℕ)
    (h : matchTopnAt cs = some n) :
    ∃ ds, TopnMatchAt cs 0 ds ∧ n = digitsToNat ds := by
  match cs with
  | [] => simp [matchTopnAt] at h
  | [c1] => simp [matchTopnAt] at h
  | [c1, c2] => simp [matchTopnAt] at h
  | [c1, c2, c3] => simp [matchTopnAt] at h
  | c1 :: c2 :: c3 :: c4 :: rest =>
    by_cases h1 : c1 = '.' ∧ c2 = 't' ∧ c3 = 'o' ∧ c4 = 'p'
    · obtain ⟨rfl, rfl, rfl, rfl⟩ := h1
      rw [show matchTopnAt ('.' :: 't' :: 'o' :: 'p' :: rest)
          = (if rest.takeWhile Char.isDigit = [] then none
             else if (rest.dropWhile Char.isDigit).head? = some '.' then
               some (digitsToNat (rest.takeWhile Char.isDigit))
             else none) from by simp [matchTopnAt]] at h
      by_cases h2 : rest.takeWhile Char.isDigit = []
      · rw [if_pos h2] at h
        exact Option.noConfusion h
      · rw [if_neg h2] at h
        by_cases h3 : (rest.dropWhile Char.isDigit).head? = some '.'
        · rw [if_pos h3] at h
          obtain ⟨tail, htail⟩ := List.head?_eq_some_iff.mp h3
          have hsplit := List.takeWhile_append_dropWhile Char.isDigit rest
          rw [htail] at hsplit
          refine ⟨rest.takeWhile Char.isDigit,
            ⟨h2, fun c hc => List.mem_takeWhile_imp hc, tail, ?_⟩,
            (Option.some.inj h).symm⟩
          rw [List.drop_zero]
          exact congrArg (fun l => '.' :: 't' :: 'o' :: 'p' :: l) hsplit.symm
        · rw [if_neg h3] at h
          exact Option.noConfusion h
    · simp [matchTopnAt, h1] at h

theorem matchTopnAt_none (cs : List Char) (ds : List Char)
    (h : matchTopnAt cs = none) : ¬ TopnMatchAt cs 0 ds := by
  intro hm
  rw [matchTopnAt_of cs ds hm] at h
  exact Option.noConfusion h

theorem topnMatchAt_succ (c : Char) (cs : List Char) (i : ℕ) (ds : List Char) :
    TopnMatchAt (c :: cs) (i + 1) ds ↔ TopnMatchAt cs i ds := by
  simp [TopnMatchAt, List.drop_succ_cons]

theorem searchTopn_eq_none_iff (cs : List Char) :
    searchTopn cs = none ↔ ∀ i ds, ¬ TopnMatchAt cs i ds := by
  induction cs with
  | nil =>
    simp only [searchTopn, true_iff]
    intro i ds hm
    obtain ⟨_, _, post, hpost⟩ := hm
    rw [List.drop_nil] at hpost
    exact List.noConfusion hpost
  | cons c cs ih =>
    constructor
    · intro h i ds hm
      rcases hmt : matchTopnAt (c :: cs) with _ | n
      · rw [searchTopn, hmt] at h
        cases i with
        | zero => exact matchTopnAt_none _ ds hmt hm
        | succ i => exact (ih.mp h) i ds ((topnMatchAt_succ c cs i ds).mp hm)
      · rw [searchTopn, hmt] at h
        exact Option.noConfusion h
    · intro h
      rcases hmt : matchTopnAt (c :: cs) with _ | n
      · rw [searchTopn, hmt]
        exact ih.mpr (fun i ds hm =>
          h (i + 1) ds ((topnMatchAt_succ c cs i ds).mpr hm))
      · obtain ⟨ds, hm, _⟩ := matchTopnAt_some_elim _ n hmt
        exact absurd hm (h 0 ds)

theorem searchTopn_leftmost : ∀ (cs : List Char) (i : ℕ) (ds : List Char),
    TopnMatchAt cs i ds → (∀ j ds2, j < i → ¬ TopnMatchAt cs j ds2) →
    searchTopn cs = some (digitsToNat ds) := by
  intro cs
  induction cs with
  | nil =>
    intro i ds h _
    obtain ⟨_, _, post, hpost⟩ := h
    rw [List.drop_nil] at hpost
    exact List.noConfusion hpost
  | cons c cs ih =>
    intro i ds h hearlier
    cases i with
    | zero =>
      rw [searchTopn, matchTopnAt_of _ ds h]
    | succ i =>
      have hnone : matchTopnAt (c :: cs) = none := by
        rcases hmt : matchTopnAt (c :: cs) with _ | n
        · rfl
        · obtain ⟨ds2, hm2, _⟩ := matchTopnAt_some_elim _ n hmt
          exact absurd hm2 (hearlier 0 ds2 (Nat.succ_pos i))
      rw [searchTopn, hnone]
      exact ih i ds ((topnMatchAt_succ c cs i ds).mp h)
        (fun j ds2 hj hm =>
          hearlier (j + 1) ds2 (by omega) ((topnMatchAt_succ c cs j ds2).mpr hm))

/-- **C6**: the `topn` derived from a vocabulary filename is the captured
integer of the leftmost `\.top(\d+)\.` match and exactly `1` when the
pattern is absent; in particular `x.top5.txt` yields `5` and `x.txt`
yields `1`. -/
theorem topn_filename_derivation :
    (∀ cs : List Char, (∀ i ds, ¬ TopnMatchAt cs i ds) → topnOfChars cs = 1) ∧
    (∀ (cs : List Char) (i : ℕ) (ds : List Char), TopnMatchAt cs i ds →
      (∀ j ds2, j < i → ¬ TopnMatchAt cs j ds2) →
      topnOfChars cs = digitsToNat ds) ∧
    topnOfFilename "x.top5.txt" = 5 ∧ topnOfFilename "x.txt" = 1 := by
  refine ⟨?_, ?_, by decide, by decide⟩
  · intro cs h
    rw [topnOfChars, (searchTopn_eq_none_iff cs).mpr h]
    rfl
  · intro cs i ds h hearlier
    rw [topnOfChars, searchTopn_leftmost cs i ds h hearlier]
    rfl

theorem topn_filename_derivation_witness :
    topnOfChars ('a' :: '.' :: 't' :: 'o' :: 'p' :: '1' :: '2' :: '.' :: 'b' :: []) = 12 ∧
    topnOfChars ('x' :: 'y' :: []) = 1 := by
  constructor
  · have hnone : ∀ j ds2, j < 1 →
        ¬ TopnMatchAt ('a' :: '.' :: 't' :: 'o' :: 'p' :: '1' :: '2' :: '.' :: 'b' :: []) j ds2 := by
      intro j ds2 hj hm
      have hj0 : j = 0 := by omega
      subst hj0
      obtain ⟨_, _, post, hpost⟩ := hm
      rw [List.drop_zero] at hpost
      have hh := congrArg List.head? hpost
      simp at hh
    have h := topn_filename_derivation.2.1 _ 1 ('1' :: '2' :: [])
      ⟨by decide, by decide, ('b' :: []), by decide⟩ hnone
    rw [h]
    decide
  · refine topn_filename_derivation.1 ('x' :: 'y' :: []) ?_
    intro i ds hm
    obtain ⟨_, _, post, hpost⟩ := hm
    have hlen := congrArg List.length hpost
    simp [List.length_drop] at hlen
    omega

/-- **C8**: every clause the pipeline appends for a ranked match is
`", " ++ label` in plain mode and `", (" ++ label ++ ":" ++ confidence/100
to three decimals ++ ")"` in ranked-score mode; a confidence of `87.654`
for `watercolor` produces exactly the clause `", (watercolor:0.877)"`, so
the output contains the substring `(watercolor:0.877)`. -/
theorem match_clause_formatting :
    (∀ (l k a : Bool) (d : ℕ) (m : String) (x : ℚ),
      matchText (Opts.mk l k a false d) (m, x) = ", " ++ m) ∧
    matchText (Opts.mk false false false true 0)
      ("watercolor", (87654 / 1000 : ℚ)) = ", (watercolor:0.877)" ∧
    (∃ p q : String, matchText (Opts.mk false false false true 0)
      ("watercolor", (87654 / 1000 : ℚ))
        = p ++ "(watercolor:0.877)" ++ q) := by
  have hfmt : matchText (Opts.mk false false false true 0)
      ("watercolor", (87654 / 1000 : ℚ)) = ", (watercolor:0.877)" := by
    have h : ((87654 : ℚ) / 1000 / 100 * 1000) = 43827 / 50 := by norm_num
    have h2 : roundHalfEven ((43827 : ℚ) / 50) = 877 := by
      unfold roundHalfEven
      norm_num [Int.floor_eq_iff]
    show ", (" ++ "watercolor" ++ ":" ++ fmt3 ((87654 / 1000 : ℚ) / 100) ++ ")" = _
    unfold fmt3
    rw [h, h2]
    decide
  exact ⟨fun l k a d m x => rfl, hfmt, ", ", "", by rw [hfmt]; decide⟩

end Interrogate
